import Mathlib

/-!
Verification of the `baseband` VLBI core (`vlbi_base/payload.py` and
`vlbi_base/base.py`) against its natural-language specification.

The payload codec and the stream engine are embedded shallowly: numpy word
buffers become `List Nat` of `bpw`-bit words, Python slices are modelled by
CPython's slice-resolution semantics over `Int`, astropy time/quantity
arithmetic becomes `ℚ`, and fallible operations return `Except`.
-/

namespace Baseband

/-! ### Python slice semantics (CPython `sliceobject.c`) -/

/-- Resolve Python slice endpoints against a sequence length, following
CPython's `PySlice_GetIndicesEx`: a negative endpoint has the length added,
then the endpoint is clamped to `[lower, upper]`, with the bounds depending
on the sign of the step. -/
def pySliceIndices (length : Nat) (osta osto : Option Int) (step : Int) :
    Int × Int :=
  let lower : Int := if step < 0 then -1 else 0
  let upper : Int := if step < 0 then (length : Int) - 1 else (length : Int)
  let clamp : Int → Int := fun s0 =>
    let s1 := if s0 < 0 then s0 + (length : Int) else s0
    if s1 < lower then lower else if upper < s1 then upper else s1
  let start := match osta with
    | none => if step < 0 then upper else lower
    | some s => clamp s
  let stop := match osto with
    | none => if step < 0 then lower else upper
    | some s => clamp s
  (start, stop)

/-- Number of elements selected by a resolved Python slice (CPython's
`slicelength` computation). -/
def pySliceCount (start stop step : Int) : Nat :=
  if 0 < step then
    (if start < stop then ((stop - start - 1) / step + 1).toNat else 0)
  else
    (if stop < start then ((start - stop - 1) / (-step) + 1).toNat else 0)

/-- Python sequence slicing `l[start:stop:step]` (`step ≠ 0`); numpy basic
slicing along the leading axis has the same semantics. -/
def pySliceList {α : Type} [Inhabited α] (l : List α)
    (osta osto ostep : Option Int) : List α :=
  let step := ostep.getD 1
  let (start, stop) := pySliceIndices l.length osta osto step
  (List.range (pySliceCount start stop step)).map
    (fun (k : Nat) => l.getD (start + (k : Int) * step).toNat default)

/-! ### The payload (`vlbi_base/payload.py`) -/

/-- Structure `VLBIPayloadBase`: a buffer of LSB-first unsigned words plus sample
metadata.  `bpw` is `8 * words.dtype.itemsize` (32 for the default `<u4`
word dtype). -/
structure PyPayload where
  words : List Nat
  bpw : Nat
  bps : Nat
  sample_shape : List Nat
  complex_data : Bool
deriving DecidableEq

/-- Attribute `self._bpfs`: bits per full sample,
`bps * (2 if complex_data else 1) * reduce(mul, sample_shape, 1)`. -/
def bpfs (p : PyPayload) : Nat :=
  p.bps * (if p.complex_data then 2 else 1) * p.sample_shape.prod

/-- Attribute `self.nsample`: `self.size * 8 // self._bpfs` (floor division), where
`self.size * 8 = words.size * itemsize * 8 = words.length * bpw` bits. -/
def nsample (p : PyPayload) : Nat := p.words.length * p.bpw / bpfs p

/-- Modelled from the spec: the per-`bps` decoders (`cls._decoders`) are
format-specific and not part of the excerpted source.  Per the spec the
codec is bps-generic and LSB-first: one word of `bpw` bits holds
`bpw / bps` sample components of `bps` bits each, least significant bits
first. -/
def wordComponents (bps bpw w : Nat) : List Nat :=
  (List.range (bpw / bps)).map (fun j => w / 2 ^ (j * bps) % 2 ^ bps)

/-- Decode a word buffer into the flat list of its sample components. -/
def decodeWords (bps bpw : Nat) : List Nat → List Nat
  | [] => []
  | w :: ws => wordComponents bps bpw w ++ decodeWords bps bpw ws

/-- Components per full sample: the grouping arity of
`.reshape(-1, *sample_shape)` applied to the decoded components (a complex
scalar counts as its two real components). -/
def compsPerSample (p : PyPayload) : Nat := bpfs p / p.bps

/-- numpy's row-major grouping of a flat component list into rows of `m`
(the leading axis of `.reshape(-1, ...)`). -/
def chunkExact (m : Nat) (l : List Nat) : List (List Nat) :=
  (List.range (l.length / m)).map (fun i => (l.drop (i * m)).take m)

/-- A payload index expression: an integer or a slice.  (Tuple items recurse
on their first element and pass the rest through unchanged; no claim
involves them, so they are not modelled.) -/
inductive PyItem where
  | int (i : Int)
  | slc (osta osto ostep : Option Int)
deriving DecidableEq

/-- The Python exception kinds raised by the payload access paths. -/
inductive PayloadErr where
  | typeErr
  | indexErr
  | valueErr
deriving DecidableEq

/-- The data-axis selector returned by `_item_to_slices`: an integer index
or a slice. -/
inductive DSlice where
  | idx (i : Int)
  | slc (osta osto ostep : Option Int)
deriving DecidableEq

/-- Method `VLBIPayloadBase._item_to_slices` (payload.py, lines 146-229) for int
and slice items.  Mirrors the source: resolve the item against `nsample`
(`slice.indices` / negative-index adjustment with bounds check), take the
zero-cost whole-buffer path when the resolved count equals `nsample`, and
otherwise case on the divisibility relation between `_bpfs` and the word
bit width, raising TypeError when neither divides the other.  Python's
`divmod` is floor-based, hence `Int.fdiv`/`Int.fmod`. -/
def item_to_slices (p : PyPayload) :
    PyItem → Except PayloadErr ((Option Int × Option Int) × DSlice)
  | .slc osta osto ostep =>
    let step0 := ostep.getD 1
    if step0 = 0 then .error .valueErr else
    let ns := nsample p
    let (start, stop) := pySliceIndices ns osta osto step0
    let stepOpt : Option Int := if step0 = 1 then none else some step0
    let n : Int := stop - start
    if n = (ns : Int) then
      .ok ((none, none), .slc none none stepOpt)
    else
      let bpw := p.bpw
      let bpfs' := bpfs p
      if bpfs' % bpw = 0 then
        let wpfs : Int := (bpfs' / bpw : Nat)
        .ok ((some (start * wpfs), some (stop * wpfs)), .slc none none stepOpt)
      else if bpw % bpfs' = 0 then
        let fspw : Int := (bpw / bpfs' : Nat)
        let w_start := Int.fdiv start fspw
        let o_start := Int.fmod start fspw
        let w_stop := Int.fdiv stop fspw
        let o_stop := Int.fmod stop fspw
        .ok ((some w_start, some (if o_stop ≠ 0 then w_stop + 1 else w_stop)),
          .slc (if o_start ≠ 0 then some o_start else none)
               (if o_stop ≠ 0 then some (o_start + n) else none) stepOpt)
      else .error .typeErr
  | .int i0 =>
    let ns := nsample p
    let i := if i0 < 0 then i0 + (ns : Int) else i0
    if ¬ (0 ≤ i ∧ i < (ns : Int)) then .error .indexErr else
    let start := i
    let stop := i + 1
    if (1 : Int) = (ns : Int) then
      .ok ((none, none), .idx 0)
    else
      let bpw := p.bpw
      let bpfs' := bpfs p
      if bpfs' % bpw = 0 then
        let wpfs : Int := (bpfs' / bpw : Nat)
        .ok ((some (start * wpfs), some (stop * wpfs)), .idx 0)
      else if bpw % bpfs' = 0 then
        let fspw : Int := (bpw / bpfs' : Nat)
        let w_start := Int.fdiv start fspw
        let o_start := Int.fmod start fspw
        let w_stop := Int.fdiv stop fspw
        let o_stop := Int.fmod stop fspw
        .ok ((some w_start, some (if o_stop ≠ 0 then w_stop + 1 else w_stop)),
          .idx o_start)
      else .error .typeErr

/-- Method `VLBIPayloadBase.__getitem__` (payload.py, lines 231-242), returning
the decoded result as a flat list of sample components (row-major; a
complex scalar flattened to its consecutive real components, exactly the
buffer the `.view`/`.reshape` calls reinterpret).  A `.reshape` call is
modelled by its success condition: numpy raises ValueError when the
component count does not fit the requested shape. -/
def payloadGetItem (p : PyPayload) (item : PyItem) :
    Except PayloadErr (List Nat) :=
  if item = .slc none none none then
    -- `item == slice(None)`: decode all words, `.reshape(self.shape)`.
    let comps := decodeWords p.bps p.bpw p.words
    if comps.length = nsample p * compsPerSample p then .ok comps
    else .error .valueErr
  else
    match item_to_slices p item with
    | .error e => .error e
    | .ok (ws, ds) =>
      let comps := decodeWords p.bps p.bpw (pySliceList p.words ws.1 ws.2 none)
      if compsPerSample p ∣ comps.length then
        let samples := chunkExact (compsPerSample p) comps
        match ds with
        | .idx i =>
          if h : 0 ≤ i ∧ i.toNat < samples.length then
            .ok (samples.get ⟨i.toNat, h.2⟩)
          else .error .indexErr
        | .slc a b s => .ok (List.flatten (pySliceList samples a b s))
      else .error .valueErr

/-! ### The frame-rate detector (`vlbi_base/base.py`) -/

/-- Abstract frame header: the collaborator fields `_get_frame_rate` uses
(`header['frame_nr']`, `header.seconds`, `header.payloadsize`). -/
structure SHeader where
  frame_nr : Nat
  seconds : Nat
  payloadsize : Nat
deriving DecidableEq

/-- First loop of `_get_frame_rate`: read headers while the frame number
equals that of the first header.  `h` is the header just read, `rest` the
frames not yet read, `pos` the stream position in frames consumed.  An
`EOFError` from `fromfile` carries the position at which the stream
ended. -/
def skipLoop (fn0 : Nat) : SHeader → List SHeader → Nat →
    Except Nat (SHeader × List SHeader × Nat)
  | h, rest, pos =>
    if h.frame_nr = fn0 then
      match rest with
      | [] => .error pos
      | h' :: t => skipLoop fn0 h' t (pos + 1)
    else .ok (h, rest, pos)

/-- Second loop of `_get_frame_rate`: while the frame number is positive,
fold it into the running maximum and read the next header. -/
def maxLoop : Nat → SHeader → List SHeader → Nat →
    Except Nat (Nat × SHeader × List SHeader × Nat)
  | maxf, h, rest, pos =>
    if 0 < h.frame_nr then
      match rest with
      | [] => .error pos
      | h' :: t => maxLoop (max h.frame_nr maxf) h' t (pos + 1)
    else .ok (maxf, h, rest, pos)

/-- Method `VLBIStreamReaderBase._get_frame_rate` (base.py, lines 251-297) over an
abstract stream: `hs` lists the frames from the entry position (so
`oldpos = 0`), and the position counts frames consumed
(`header_template.fromfile` plus `fh.seek(header.payloadsize, 1)` advance
one frame).  On success `fh.seek(oldpos)` restores position 0; an EOFError
propagates with the position left at the failed read.  The final
`header.seconds` comparison only emits a non-fatal warning and does not
affect the result.  Returns (frames per second, final position). -/
def get_frame_rate (hs : List SHeader) : Except Nat (Nat × Nat) :=
  match hs with
  | [] => .error 0
  | h0 :: t =>
    match skipLoop h0.frame_nr h0 t 1 with
    | .error p => .error p
    | .ok (h1, r1, p1) =>
      match maxLoop h0.frame_nr h1 r1 p1 with
      | .error p => .error p
      | .ok (maxf, _, _, _) => .ok (maxf + 1, 0)

/-- Method `VLBIStreamReaderBase.__init__` (base.py, lines 230-249): sample-rate
determination.  An explicit `sample_rate` is used as given; otherwise it is
`samples_per_frame * _get_frame_rate(...)`, and any exception raised by the
detector is re-raised (the code only appends a hint to its `args`). -/
def readerSampleRate (hs : List SHeader) (samples_per_frame : Nat)
    (sample_rate : Option Nat) : Except Nat Nat :=
  match sample_rate with
  | some r => .ok r
  | none =>
    match get_frame_rate hs with
    | .error p => .error p
    | .ok (fr, _) => .ok (samples_per_frame * fr)

/-! ### Stream seek and tell (`vlbi_base/base.py`) -/

/-- One `seek` offset argument: an integer sample count, a duration quantity
(in seconds), or an absolute time (seconds since a fixed epoch).  astropy
`Time`/`Quantity` arithmetic is modelled over `ℚ`. -/
inductive SeekTarget where
  | samples (n : Int)
  | duration (d : ℚ)
  | time (t : ℚ)

/-- Stream state for `seek`/`tell`.  `size` is the number of samples in the
file (base.py, lines 330-334); its lazy derivation from the last header is
not needed by any claim, so it is carried as a field. -/
structure StreamSt where
  offset : Int
  start_time : ℚ
  sample_rate : ℚ
  size : Int
deriving DecidableEq

/-- numpy round-half-to-even, the rounding applied by `.round()` on the
converted sample count. -/
def roundHalfEven (q : ℚ) : Int :=
  let f := ⌊q⌋
  if q - f < 1/2 then f
  else if (1 : ℚ)/2 < q - f then f + 1
  else if f % 2 = 0 then f else f + 1

/-- Method `VLBIStreamReaderBase.seek` (base.py, lines 336-376).  An integer
offset (`offset.__index__()` succeeds) is used directly.  Otherwise
`offset - self.start_time` succeeds exactly for an absolute time, which
converts it to a duration and forces `whence = 0`; a duration keeps the
caller's `whence`; either is then converted to samples by
`int((offset * sample_rate).round())`.  An invalid `whence` raises
ValueError.  (The string aliases map to the same branches as 0/1/2.) -/
def seekStream (st : StreamSt) (target : SeekTarget) (whence : Int) :
    Except Unit (Int × StreamSt) :=
  let ow : Int × Int :=
    match target with
    | .samples n => (n, whence)
    | .duration d => (roundHalfEven (d * st.sample_rate), whence)
    | .time t => (roundHalfEven ((t - st.start_time) * st.sample_rate), 0)
  let off := ow.1
  let wh := ow.2
  if wh = 0 then .ok (off, { st with offset := off })
  else if wh = 1 then .ok (st.offset + off, { st with offset := st.offset + off })
  else if wh = 2 then .ok (st.size + off, { st with offset := st.size + off })
  else .error ()

/-- Method `VLBIStreamBase.tell` with no unit (base.py, lines 186-207): returns
the raw sample offset. -/
def tellSamples (st : StreamSt) : Int := st.offset

/-! ### Squeeze and unsqueeze (`vlbi_base/base.py`) -/

/-- The squeezed sample shape (base.py, lines 77-95): keep the dimensions
`> 1` (`[dim for dim in self._sample_shape if dim > 1]`). -/
def squeezeShape (shape : List Nat) : List Nat := shape.filter (fun d => 1 < d)

/-- Python `list.insert(i, x)`; positions beyond the end append. -/
def pyInsert (l : List Nat) (i : Nat) (x : Nat) : List Nat :=
  l.take i ++ x :: l.drop i

/-- The loop of `VLBIStreamBase._unsqueeze` (base.py, lines 97-102) over
`enumerate(self._sample_shape)`: for each unit dimension at position `i` of
the full sample shape, insert a unit dimension at position `i + 1` of the
accumulated data shape. -/
def unsqueezeAux : Nat → List Nat → List Nat → List Nat
  | _, [], ns => ns
  | i, d :: ds, ns =>
    unsqueezeAux (i + 1) ds (if d = 1 then pyInsert ns (i + 1) 1 else ns)

/-- Method `_unsqueeze` at shape level: the `new_shape` computed from `data.shape`
(the final `data.reshape(new_shape)` only reinterprets the shape and keeps
the flat buffer). -/
def unsqueezeShape (sample_shape dataShape : List Nat) : List Nat :=
  unsqueezeAux 0 sample_shape dataShape

/-! ### Writer close (`vlbi_base/base.py`) -/

/-- One recorded `write` call: the written samples (each one a flat list of
component values) and its `invalid_data` flag. -/
structure WriteCall where
  data : List (List ℚ)
  invalid_data : Bool
deriving DecidableEq

/-- Writer stream state: current sample offset, frame size in samples, the
per-sample component count (product of `sample_shape`), and the log of
write calls made so far. -/
structure WriterSt where
  offset : Nat
  samples_per_frame : Nat
  shape_prod : Nat
  writes : List WriteCall
deriving DecidableEq

/-- Modelled from the spec: `write` is defined by the format-specific
stream writers, which are not part of the excerpted source.  Per the spec
it encodes the given samples, appends them to the file and advances the
sample offset by the number of samples written. -/
def writeStream (st : WriterSt) (data : List (List ℚ)) (invalid : Bool) :
    WriterSt :=
  { st with offset := st.offset + data.length,
            writes := st.writes ++ [⟨data, invalid⟩] }

/-- Method `VLBIStreamWriterBase.close` (base.py, lines 379-388): when the offset
is not frame-aligned, warn and write `samples_per_frame - extra` zero
samples (`np.zeros((spf - extra,) + sample_shape)`) with
`invalid_data=True`, then close the underlying file.  Returns the final
state and whether the warning was emitted. -/
def closeWriter (st : WriterSt) : WriterSt × Bool :=
  let extra := st.offset % st.samples_per_frame
  if extra ≠ 0 then
    (writeStream st
      (List.replicate (st.samples_per_frame - extra)
        (List.replicate st.shape_prod 0)) true, true)
  else (st, false)

/-! ### Seek and tell: C3 and C10 -/

/-- C3: for every integer `n ≥ 0` and every stream state (any size, any
current offset — no bounds clamping is applied at seek time),
`seek(n, whence=start)` sets and returns absolute offset `n`, and a
subsequent `tell()` with no unit returns exactly `n`. -/
theorem seek_start_then_tell (st : StreamSt) (n : Int) (hn : 0 ≤ n) :
    seekStream st (.samples n) 0 = .ok (n, { st with offset := n }) ∧
    tellSamples { st with offset := n } = n := by
  exact ⟨rfl, rfl⟩

theorem seek_start_then_tell_witness :
    seekStream ⟨3, 0, 2, 7⟩ (.samples 5) 0 = .ok (5, ⟨5, 0, 2, 7⟩) ∧
    tellSamples ⟨5, 0, 2, 7⟩ = 5 :=
  seek_start_then_tell ⟨3, 0, 2, 7⟩ 5 (by decide)

/-- C10: a duration offset is converted to a sample count by multiplying by
the sample rate and rounding, after which the caller-supplied whence
(start / current / end) is applied; only an absolute time forces
`whence = start` (its result ignores the caller's whence entirely). -/
theorem seek_duration_keeps_whence (st : StreamSt) (d : ℚ) (w : Int)
    (hw : w = 0 ∨ w = 1 ∨ w = 2) :
    (seekStream st (.duration d) w =
      (let n := roundHalfEven (d * st.sample_rate)
       let tgt := if w = 1 then st.offset + n else
         if w = 2 then st.size + n else n
       .ok (tgt, { st with offset := tgt }))) ∧
    (∀ (t : ℚ) (w' : Int), seekStream st (.time t) w' = seekStream st (.time t) 0) := by
  constructor
  · rcases hw with rfl | rfl | rfl <;> rfl
  · intro t w'; rfl

theorem seek_duration_keeps_whence_witness :
    seekStream ⟨10, 2, 4, 100⟩ (.duration (3/2)) 1 =
      (let n := roundHalfEven ((3/2 : ℚ) * 4)
       let tgt := if (1 : Int) = 1 then (10 : Int) + n else
         if (1 : Int) = 2 then (100 : Int) + n else n
       .ok (tgt, { offset := tgt, start_time := 2, sample_rate := 4, size := 100 })) :=
  (seek_duration_keeps_whence ⟨10, 2, 4, 100⟩ (3/2) 1 (Or.inr (Or.inl rfl))).1

/-! ### Writer close: C4 -/

/-- C4: when the offset is not a multiple of `samples_per_frame`, `close`
makes exactly one extra write of `samples_per_frame - offset % samples_per_frame`
zero-valued samples with `invalid_data = True` and emits a warning, after
which the offset is frame-aligned; when the offset is already aligned,
`close` writes nothing extra and does not warn. -/
theorem close_pads_partial_frame (st : WriterSt)
    (hspf : 0 < st.samples_per_frame) :
    (st.offset % st.samples_per_frame ≠ 0 →
      closeWriter st =
        ({ st with
            offset := st.offset +
              (st.samples_per_frame - st.offset % st.samples_per_frame),
            writes := st.writes ++
              [⟨List.replicate
                  (st.samples_per_frame - st.offset % st.samples_per_frame)
                  (List.replicate st.shape_prod 0), true⟩] }, true) ∧
      (st.offset + (st.samples_per_frame - st.offset % st.samples_per_frame))
          % st.samples_per_frame = 0) ∧
    (st.offset % st.samples_per_frame = 0 → closeWriter st = (st, false)) := by
  constructor
  · intro h
    constructor
    · simp [closeWriter, writeStream, h]
    · have hq := Nat.div_add_mod st.offset st.samples_per_frame
      have hlt : st.offset % st.samples_per_frame < st.samples_per_frame :=
        Nat.mod_lt _ hspf
      have hle : st.offset % st.samples_per_frame ≤ st.offset :=
        Nat.mod_le _ _
      have h2 : st.offset +
          (st.samples_per_frame - st.offset % st.samples_per_frame) =
          (st.offset - st.offset % st.samples_per_frame) +
            st.samples_per_frame := by omega
      have h1 : (st.offset - st.offset % st.samples_per_frame)
          % st.samples_per_frame = 0 := by
        have h3 : st.offset - st.offset % st.samples_per_frame =
            st.samples_per_frame * (st.offset / st.samples_per_frame) :=
          Nat.sub_eq_of_eq_add hq.symm
        rw [h3]
        exact Nat.mul_mod_right _ _
      rw [h2, Nat.add_mod_right, h1]
  · intro h
    simp [closeWriter, h]

theorem close_pads_partial_frame_witness :
    ((10 % 4 ≠ 0 →
      closeWriter ⟨10, 4, 2, []⟩ =
        (⟨12, 4, 2, [⟨List.replicate 2 (List.replicate 2 0), true⟩]⟩, true) ∧
      (10 + (4 - 10 % 4)) % 4 = 0) ∧
     (10 % 4 = 0 → closeWriter ⟨10, 4, 2, []⟩ = (⟨10, 4, 2, []⟩, false))) :=
  close_pads_partial_frame ⟨10, 4, 2, []⟩ (by decide)

/-! ### Squeeze and unsqueeze: C8 -/

theorem pyInsert_boundary (pre rest : List Nat) (x : Nat) :
    pyInsert (pre ++ rest) pre.length x = pre ++ x :: rest := by
  unfold pyInsert
  rw [List.take_left, List.drop_left]

theorem unsqueezeAux_inv : ∀ (shape pre : List Nat) (i : Nat),
    i + 1 = pre.length → (∀ d ∈ shape, 1 ≤ d) →
    unsqueezeAux i shape (pre ++ squeezeShape shape) = pre ++ shape := by
  intro shape
  induction shape with
  | nil => intro pre i hi hd; simp [unsqueezeAux, squeezeShape]
  | cons d ds ih =>
    intro pre i hi hd
    by_cases h1 : d = 1
    · subst h1
      have hfil : squeezeShape (1 :: ds) = squeezeShape ds := by
        simp [squeezeShape]
      rw [unsqueezeAux, hfil, if_pos rfl, hi, pyInsert_boundary]
      have hrec := ih (pre ++ [1]) (i + 1)
        (by simp [hi]) (fun d hd' => hd d (List.mem_cons_of_mem _ hd'))
      rw [hi] at hrec
      simpa [squeezeShape] using hrec
    · have h2 : 1 < d := by
        have := hd d (List.mem_cons_self _ _)
        omega
      have hfil : squeezeShape (d :: ds) = d :: squeezeShape ds := by
        simp [squeezeShape, h2]
      rw [unsqueezeAux, hfil, if_neg h1]
      have := ih (pre ++ [d]) (i + 1)
        (by simp [hi]) (fun x hx => hd x (List.mem_cons_of_mem _ hx))
      simpa using this

/-- C8: for a sample shape of positive dimensions with at least one
dimension `> 1`, `_unsqueeze` applied to a data shape
`(n,) + squeeze(sample_shape)` reconstructs `(n,) + sample_shape` exactly,
reinserting each unit dimension at its original position. -/
theorem unsqueeze_inverts_squeeze (sample_shape : List Nat) (n : Nat)
    (hpos : ∀ d ∈ sample_shape, 1 ≤ d)
    (hbig : ∃ d ∈ sample_shape, 1 < d) :
    unsqueezeShape sample_shape (n :: squeezeShape sample_shape) =
      n :: sample_shape := by
  have := unsqueezeAux_inv sample_shape [n] 0 rfl hpos
  simpa [unsqueezeShape] using this

theorem unsqueeze_inverts_squeeze_witness :
    unsqueezeShape [1, 4, 1, 3] (7 :: squeezeShape [1, 4, 1, 3]) =
      7 :: [1, 4, 1, 3] :=
  unsqueeze_inverts_squeeze [1, 4, 1, 3] 7 (by decide) (by decide)

/-! ### Frame-rate detection: C2, C6, C7 -/

theorem skipLoop_stop (fn0 : Nat) (h : SHeader) (rest : List SHeader)
    (pos : Nat) (hne : h.frame_nr ≠ fn0) :
    skipLoop fn0 h rest pos = .ok (h, rest, pos) := by
  rw [skipLoop.eq_def]
  simp [hne]

theorem skipLoop_eof (fn0 : Nat) (h : SHeader) (pos : Nat)
    (heq : h.frame_nr = fn0) : skipLoop fn0 h [] pos = .error pos := by
  rw [skipLoop.eq_def]
  simp [heq]

theorem skipLoop_step (fn0 : Nat) (h x : SHeader) (t : List SHeader)
    (pos : Nat) (heq : h.frame_nr = fn0) :
    skipLoop fn0 h (x :: t) pos = skipLoop fn0 x t (pos + 1) := by
  rw [skipLoop.eq_def]
  simp [heq]

theorem maxLoop_stop (maxf : Nat) (h : SHeader) (rest : List SHeader)
    (pos : Nat) (hz : ¬ 0 < h.frame_nr) :
    maxLoop maxf h rest pos = .ok (maxf, h, rest, pos) := by
  rw [maxLoop.eq_def]
  simp [hz]

theorem maxLoop_eof (maxf : Nat) (h : SHeader) (pos : Nat)
    (hp : 0 < h.frame_nr) : maxLoop maxf h [] pos = .error pos := by
  rw [maxLoop.eq_def]
  simp [hp]

theorem maxLoop_step (maxf : Nat) (h x : SHeader) (t : List SHeader)
    (pos : Nat) (hp : 0 < h.frame_nr) :
    maxLoop maxf h (x :: t) pos =
      maxLoop (max h.frame_nr maxf) x t (pos + 1) := by
  rw [maxLoop.eq_def]
  simp [hp]

theorem get_frame_rate_cons (h0 : SHeader) (t : List SHeader) :
    get_frame_rate (h0 :: t) =
      match skipLoop h0.frame_nr h0 t 1 with
      | .error p => .error p
      | .ok (h1, r1, p1) =>
        match maxLoop h0.frame_nr h1 r1 p1 with
        | .error p => .error p
        | .ok (maxf, _, _, _) => .ok (maxf + 1, 0) := rfl

theorem max_absorb (a b r : Nat) (h : a ≤ r) :
    max (max a b) r = max b r := by
  rcases Nat.le_total a b with h' | h'
  · rw [Nat.max_eq_right h']
  · rw [Nat.max_eq_left h', Nat.max_eq_right h, Nat.max_eq_right (h'.trans h)]

theorem maxLoop_run (R : Nat) : ∀ (rest : List SHeader) (c maxf : Nat)
    (h : SHeader) (p : Nat), h.frame_nr = c → 0 < c → c < R →
    (∀ j (hj : j < rest.length), (rest.get ⟨j, hj⟩).frame_nr = (c + 1 + j) % R) →
    R - c ≤ rest.length →
    ∃ h' t' p', maxLoop maxf h rest p = .ok (max maxf (R - 1), h', t', p') := by
  intro rest
  induction rest with
  | nil =>
    intro c maxf h p hc hc0 hcR hj hlen
    simp only [List.length_nil] at hlen
    omega
  | cons x t ih =>
    intro c maxf h p hc hc0 hcR hj hlen
    have hx : x.frame_nr = (c + 1) % R := by
      have := hj 0 (by simp)
      simpa using this
    rcases Nat.lt_or_ge (c + 1) R with hlt | hge
    · -- wrap not yet reached: recurse with c + 1
      have hx' : x.frame_nr = c + 1 := by rw [hx, Nat.mod_eq_of_lt hlt]
      have hrec := ih (c + 1) (max h.frame_nr maxf) x (p + 1) hx'
        (by omega) hlt
        (fun j hjt => by
          have h2 := hj (j + 1) (by simp only [List.length_cons]; omega)
          simp only [List.get_cons_succ] at h2
          rw [show c + 1 + 1 + j = c + 1 + (j + 1) by omega]
          exact h2)
        (by simp only [List.length_cons] at hlen; omega)
      obtain ⟨h', t', p', hres⟩ := hrec
      refine ⟨h', t', p', ?_⟩
      rw [maxLoop_step _ _ _ _ _ (by omega), hres, hc,
        max_absorb c maxf (R - 1) (by omega)]
    · -- c + 1 = R: the next header wraps back to frame number 0
      have hx0 : x.frame_nr = 0 := by
        rw [hx, show c + 1 = R by omega, Nat.mod_self]
      refine ⟨x, t, p + 1, ?_⟩
      rw [maxLoop_step _ _ _ _ _ (by omega),
        maxLoop_stop _ _ _ _ (by omega), hc, Nat.max_comm,
        show c = R - 1 by omega]

/-- C2 (amended): for a header stream whose `i`-th frame number is `i % R`
(frame numbers `0..R-1` repeating each second), with `R ≥ 2` and the stream
reaching at least one header past the first full second, the detector
returns exactly `R` frames per second — one more than the largest frame
number seen before the wrap — restoring the stream position. -/
theorem frame_rate_detects (R : Nat) (hs : List SHeader) (hR : 2 ≤ R)
    (hlen : R + 1 ≤ hs.length)
    (hfr : ∀ i (hi : i < hs.length), (hs.get ⟨i, hi⟩).frame_nr = i % R) :
    get_frame_rate hs = .ok (R, 0) := by
  cases hs with
  | nil => simp only [List.length_nil] at hlen; omega
  | cons h0 rest =>
    cases rest with
    | nil => simp only [List.length_cons, List.length_nil] at hlen; omega
    | cons h1 t =>
      have h0f : h0.frame_nr = 0 := by
        have := hfr 0 (by simp)
        simpa using this
      have h1f : h1.frame_nr = 1 := by
        have := hfr 1 (by simp)
        simpa [Nat.mod_eq_of_lt (by omega : 1 < R)] using this
      have hskip : skipLoop h0.frame_nr h0 (h1 :: t) 1 = .ok (h1, t, 2) := by
        rw [skipLoop_step _ _ _ _ _ rfl, skipLoop_stop _ _ _ _ (by omega)]
      have hrun := maxLoop_run R t 1 h0.frame_nr h1 2 h1f (by omega) (by omega)
        (fun j hj => by
          have h2 := hfr (j + 2) (by simp only [List.length_cons]; omega)
          simp only [List.get_cons_succ] at h2
          rw [show 1 + 1 + j = j + 2 by omega]
          exact h2)
        (by simp only [List.length_cons] at hlen; omega)
      obtain ⟨h', t', p', hres⟩ := hrun
      simp only [get_frame_rate_cons, hskip, hres]
      rw [h0f, Nat.zero_max, show R - 1 + 1 = R by omega]

theorem frame_rate_detects_witness :
    get_frame_rate [⟨0, 0, 8⟩, ⟨1, 0, 8⟩, ⟨0, 1, 8⟩] = .ok (2, 0) :=
  frame_rate_detects 2 [⟨0, 0, 8⟩, ⟨1, 0, 8⟩, ⟨0, 1, 8⟩]
    (by decide) (by decide) (by decide)

/-- C2 counterexample: two in-scope instances of the claim as stated on
which the detector raises EOFError instead of returning `R`: frame numbers
`0..R-1` repeating each second with `R = 1` for three full seconds, and
with `R = 2` for exactly one full second (no header of the following
second present). -/
theorem frame_rate_claim_fails_as_stated :
    get_frame_rate [⟨0, 5, 8⟩, ⟨0, 6, 8⟩, ⟨0, 7, 8⟩] = .error 3 ∧
    get_frame_rate [⟨0, 5, 8⟩, ⟨1, 5, 8⟩] = .error 2 :=
  ⟨rfl, rfl⟩

/-- C6 (amended): on success the detector restores the stream position to
where it started (position 0 in frames consumed). -/
theorem frame_rate_restores_on_success (hs : List SHeader) (r p : Nat)
    (hok : get_frame_rate hs = .ok (r, p)) : p = 0 := by
  cases hs with
  | nil => exact absurd hok (by simp [get_frame_rate])
  | cons h0 t =>
    rw [get_frame_rate_cons] at hok
    split at hok
    · exact absurd hok (by simp)
    · split at hok
      · exact absurd hok (by simp)
      · simp only [Except.ok.injEq, Prod.mk.injEq] at hok
        exact hok.2.symm

theorem frame_rate_restores_on_success_witness :
    get_frame_rate [⟨0, 2, 8⟩, ⟨1, 2, 8⟩, ⟨0, 3, 8⟩] = .ok (2, 0) ∧
    (0 : Nat) = 0 :=
  ⟨rfl, frame_rate_restores_on_success [⟨0, 2, 8⟩, ⟨1, 2, 8⟩, ⟨0, 3, 8⟩] 2 0 rfl⟩

/-- C6 counterexample: on failure the position is not restored — with a
single header (detection fails with EOFError) the stream is left one frame
past the entry position, because `fh.seek(oldpos)` is only reached on the
success path. -/
theorem frame_rate_failure_leaves_position :
    get_frame_rate [⟨0, 5, 8⟩] = .error 1 ∧ (1 : Nat) ≠ 0 :=
  ⟨rfl, by decide⟩

theorem skipLoop_result (fn0 : Nat) : ∀ (rest : List SHeader) (h : SHeader)
    (p : Nat),
    (∃ q, skipLoop fn0 h rest p = .error q) ∨
    ∃ h' t' p', skipLoop fn0 h rest p = .ok (h', t', p') ∧
      h' :: t' = (h :: rest).dropWhile (fun x => x.frame_nr == fn0) := by
  intro rest
  induction rest with
  | nil =>
    intro h p
    by_cases hh : h.frame_nr = fn0
    · exact Or.inl ⟨p, skipLoop_eof fn0 h p hh⟩
    · refine Or.inr ⟨h, [], p, skipLoop_stop fn0 h [] p hh, ?_⟩
      simp [List.dropWhile, (beq_eq_false_iff_ne.mpr hh : (h.frame_nr == fn0) = false)]
  | cons x t ih =>
    intro h p
    by_cases hh : h.frame_nr = fn0
    · have hdw : ((h :: x :: t).dropWhile (fun y => y.frame_nr == fn0)) =
          ((x :: t).dropWhile (fun y => y.frame_nr == fn0)) := by
        simp [List.dropWhile, hh]
      rcases ih x (p + 1) with ⟨q, hq⟩ | ⟨h', t', p', hok, hdw'⟩
      · exact Or.inl ⟨q, by rw [skipLoop_step _ _ _ _ _ hh]; exact hq⟩
      · refine Or.inr ⟨h', t', p', ?_, ?_⟩
        · rw [skipLoop_step _ _ _ _ _ hh]; exact hok
        · rw [hdw]; exact hdw'
    · refine Or.inr ⟨h, x :: t, p, skipLoop_stop fn0 h (x :: t) p hh, ?_⟩
      simp [List.dropWhile, (beq_eq_false_iff_ne.mpr hh : (h.frame_nr == fn0) = false)]

theorem maxLoop_no_wrap : ∀ (rest : List SHeader) (maxf : Nat) (h : SHeader)
    (p : Nat), h.frame_nr ≠ 0 → (∀ x ∈ rest, x.frame_nr ≠ 0) →
    ∃ q, maxLoop maxf h rest p = .error q := by
  intro rest
  induction rest with
  | nil =>
    intro maxf h p hh _
    exact ⟨p, maxLoop_eof maxf h p (by omega)⟩
  | cons x t ih =>
    intro maxf h p hh hrest
    obtain ⟨q, hq⟩ := ih (max h.frame_nr maxf) x (p + 1)
      (hrest x (List.mem_cons_self _ _))
      (fun y hy => hrest y (List.mem_cons_of_mem _ hy))
    exact ⟨q, by rw [maxLoop_step _ _ _ _ _ (by omega)]; exact hq⟩

/-- C7: if every header past the initial run of repeated first-frame-numbers
has a nonzero frame number (the stream ends before the frame counter wraps
back to zero), the detector raises EOFError rather than returning a rate,
and the reader constructor invoked without an explicit sample rate
propagates that error. -/
theorem frame_rate_eof_before_wrap (hs : List SHeader)
    (samples_per_frame : Nat)
    (hnw : ∀ x ∈ hs.dropWhile
      (fun h => h.frame_nr == (hs.headD ⟨0, 0, 0⟩).frame_nr),
      x.frame_nr ≠ 0) :
    (∃ p, get_frame_rate hs = .error p) ∧
    (∃ p, readerSampleRate hs samples_per_frame none = .error p) := by
  suffices hm : ∃ p, get_frame_rate hs = .error p by
    obtain ⟨p, hp⟩ := hm
    exact ⟨⟨p, hp⟩, ⟨p, by simp only [readerSampleRate, hp]⟩⟩
  cases hs with
  | nil => exact ⟨0, rfl⟩
  | cons h0 t =>
    rcases skipLoop_result h0.frame_nr t h0 1 with ⟨q, hq⟩ | ⟨h1, t1, p1, hok, hdw⟩
    · exact ⟨q, by simp only [get_frame_rate_cons, hq]⟩
    · have hdw' : h1 :: t1 = (h0 :: t).dropWhile
          (fun x => x.frame_nr == (((h0 :: t).headD ⟨0, 0, 0⟩)).frame_nr) := hdw
      have h1ne : h1.frame_nr ≠ 0 :=
        hnw h1 (by rw [← hdw']; exact List.mem_cons_self _ _)
      have ht1 : ∀ x ∈ t1, x.frame_nr ≠ 0 := fun x hx =>
        hnw x (by rw [← hdw']; exact List.mem_cons_of_mem _ hx)
      obtain ⟨q, hq⟩ := maxLoop_no_wrap t1 h0.frame_nr h1 p1 h1ne ht1
      exact ⟨q, by simp only [get_frame_rate_cons, hok, hq]⟩

theorem frame_rate_eof_before_wrap_witness :
    (∃ p, get_frame_rate [⟨0, 0, 8⟩, ⟨1, 0, 8⟩, ⟨2, 0, 8⟩] = .error p) ∧
    (∃ p, readerSampleRate [⟨0, 0, 8⟩, ⟨1, 0, 8⟩, ⟨2, 0, 8⟩] 4 none = .error p) :=
  frame_rate_eof_before_wrap [⟨0, 0, 8⟩, ⟨1, 0, 8⟩, ⟨2, 0, 8⟩] 4 (by decide)


/-! ### Python slice extraction lemmas -/

theorem pySliceIndices_natNat (len a b : Nat) (ha : a ≤ len) (hb : b ≤ len) :
    pySliceIndices len (some (a : Int)) (some (b : Int)) 1 =
      ((a : Int), (b : Int)) := by
  simp only [pySliceIndices, Prod.mk.injEq]
  constructor <;> (split_ifs <;> omega)

theorem pySliceIndices_none_none (len : Nat) :
    pySliceIndices len none none 1 = (0, (len : Int)) := by
  simp only [pySliceIndices, Prod.mk.injEq]
  constructor <;> (split_ifs <;> omega)

theorem pySliceIndices_nat_none (len a : Nat) (ha : a ≤ len) :
    pySliceIndices len (some (a : Int)) none 1 = ((a : Int), (len : Int)) := by
  simp only [pySliceIndices, Prod.mk.injEq]
  constructor <;> (split_ifs <;> omega)

theorem pySliceIndices_none_nat (len b : Nat) (hb : b ≤ len) :
    pySliceIndices len none (some (b : Int)) 1 = (0, (b : Int)) := by
  simp only [pySliceIndices, Prod.mk.injEq]
  constructor <;> (split_ifs <;> omega)

theorem pySliceCount_step1 (s e : Nat) :
    pySliceCount (s : Int) (e : Int) 1 = e - s := by
  simp only [pySliceCount]
  split_ifs <;> omega

/-- Workhorse: a slice whose endpoints resolve to `s ≤ e ≤ len` with step 1
extracts `(l.drop s).take (e - s)`. -/
theorem pySliceList_resolved {α : Type} [Inhabited α] (l : List α)
    (osta osto : Option Int) (s e : Nat)
    (hres : pySliceIndices l.length osta osto 1 = ((s : Int), (e : Int)))
    (hse : s ≤ e) (he : e ≤ l.length) :
    pySliceList l osta osto none = (l.drop s).take (e - s) := by
  unfold pySliceList
  simp only [Option.getD]
  rw [hres, pySliceCount_step1]
  apply List.ext_getElem
  · simp only [List.length_map, List.length_range, List.length_take,
      List.length_drop]
    omega
  · intro n h1 h2
    rw [List.getElem_map, List.getElem_range, List.getElem_take,
      List.getElem_drop]
    have hn : n < e - s := by simpa using h1
    have htn : ((s : Int) + (n : Int) * 1).toNat = s + n := by omega
    rw [htn, List.getD_eq_getElem l default (by omega)]

/-! ### Decoder homomorphism lemmas -/

theorem length_wordComponents (bps bpw w : Nat) :
    (wordComponents bps bpw w).length = bpw / bps := by
  simp [wordComponents]

theorem length_decodeWords (bps bpw : Nat) (l : List Nat) :
    (decodeWords bps bpw l).length = l.length * (bpw / bps) := by
  induction l with
  | nil => simp [decodeWords]
  | cons w ws ih =>
    simp only [decodeWords, List.length_append, length_wordComponents, ih,
      List.length_cons]
    ring

theorem decodeWords_append (bps bpw : Nat) (l1 l2 : List Nat) :
    decodeWords bps bpw (l1 ++ l2) =
      decodeWords bps bpw l1 ++ decodeWords bps bpw l2 := by
  induction l1 with
  | nil => simp [decodeWords]
  | cons w ws ih => simp [decodeWords, ih]

theorem decodeWords_drop (bps bpw : Nat) (l : List Nat) (k : Nat)
    (hk : k ≤ l.length) :
    decodeWords bps bpw (l.drop k) =
      (decodeWords bps bpw l).drop (k * (bpw / bps)) := by
  have h1 : decodeWords bps bpw l =
      decodeWords bps bpw (l.take k) ++ decodeWords bps bpw (l.drop k) := by
    rw [← decodeWords_append, List.take_append_drop]
  have hlen : (decodeWords bps bpw (l.take k)).length = k * (bpw / bps) := by
    rw [length_decodeWords, List.length_take, min_eq_left hk]
  rw [h1, ← hlen, List.drop_left]

theorem decodeWords_take (bps bpw : Nat) (l : List Nat) (k : Nat)
    (hk : k ≤ l.length) :
    decodeWords bps bpw (l.take k) =
      (decodeWords bps bpw l).take (k * (bpw / bps)) := by
  have h1 : decodeWords bps bpw l =
      decodeWords bps bpw (l.take k) ++ decodeWords bps bpw (l.drop k) := by
    rw [← decodeWords_append, List.take_append_drop]
  have hlen : (decodeWords bps bpw (l.take k)).length = k * (bpw / bps) := by
    rw [length_decodeWords, List.length_take, min_eq_left hk]
  rw [h1, ← hlen, List.take_left]

/-! ### Chunking lemmas (`reshape(-1, *sample_shape)` rows) -/

theorem length_chunkExact (m : Nat) (l : List Nat) :
    (chunkExact m l).length = l.length / m := by
  simp [chunkExact]

theorem getElem_chunkExact (m : Nat) (l : List Nat) (i : Nat)
    (h : i < (chunkExact m l).length) :
    (chunkExact m l)[i] = (l.drop (i * m)).take m := by
  simp [chunkExact]

theorem chunk_flatten_drop_take (m : Nat) (hm : 0 < m) (l : List Nat) :
    ∀ (n a : Nat), (a + n) * m ≤ l.length →
    (((chunkExact m l).drop a).take n).flatten =
      (l.drop (a * m)).take (n * m) := by
  intro n
  induction n with
  | zero => intro a h; simp
  | succ n ih =>
    intro a h
    have ha : a < (chunkExact m l).length := by
      rw [length_chunkExact]
      have h1 : (a + 1) * m ≤ l.length :=
        le_trans (Nat.mul_le_mul_right m (by omega)) h
      exact (Nat.le_div_iff_mul_le hm).mpr h1
    rw [List.drop_eq_getElem_cons ha, List.take_succ_cons, List.flatten_cons,
      getElem_chunkExact]
    have h' : (a + 1 + n) * m ≤ l.length := by
      have e : a + 1 + n = a + (n + 1) := by omega
      rw [e]; exact h
    rw [ih (a + 1) h']
    rw [show (n + 1) * m = m + n * m by ring, List.take_add]
    congr 1
    rw [List.drop_drop, show a * m + m = (a + 1) * m by ring]

theorem chunk_flatten_all (m : Nat) (hm : 0 < m) (l : List Nat)
    (hdvd : m ∣ l.length) : (chunkExact m l).flatten = l := by
  have h := chunk_flatten_drop_take m hm l (l.length / m) 0
    (by simpa using Nat.div_mul_le_self l.length m)
  have htake : (chunkExact m l).take (l.length / m) = chunkExact m l := by
    rw [← length_chunkExact m l]
    exact List.take_length _
  rw [List.drop_zero, htake] at h
  rw [h, Nat.zero_mul, List.drop_zero, Nat.div_mul_cancel hdvd,
    List.take_length]

/-! ### Evaluating `_item_to_slices` on step-1 slices with Nat endpoints -/

theorem Int_fdiv_natCast (a f : Nat) :
    Int.fdiv (a : Int) ((f : Nat) : Int) = ((a / f : Nat) : Int) := by
  rw [Int.fdiv_eq_tdiv (Int.natCast_nonneg a) (Int.natCast_nonneg f)]
  exact (Int.ofNat_tdiv a f).symm

theorem Int_fmod_natCast (a f : Nat) :
    Int.fmod (a : Int) ((f : Nat) : Int) = ((a % f : Nat) : Int) := by
  rw [Int.fmod_eq_tmod (Int.natCast_nonneg a) (Int.natCast_nonneg f)]
  exact (Int.ofNat_tmod a f).symm

/-- Evaluation of `_item_to_slices` on the slice `[a:b]` (step 1) with
`a ≤ b ≤ nsample`, in Nat terms. -/
theorem item_to_slices_natSlice (p : PyPayload) (a b : Nat) (hab : a ≤ b)
    (hb : b ≤ nsample p) :
    item_to_slices p (.slc (some (a : Int)) (some (b : Int)) none) =
      (if b - a = nsample p then
        .ok ((none, none), .slc none none none)
      else if bpfs p % p.bpw = 0 then
        .ok ((some ((a * (bpfs p / p.bpw) : Nat) : Int),
              some ((b * (bpfs p / p.bpw) : Nat) : Int)), .slc none none none)
      else if p.bpw % bpfs p = 0 then
        .ok ((some ((a / (p.bpw / bpfs p) : Nat) : Int),
              some (((if b % (p.bpw / bpfs p) ≠ 0 then b / (p.bpw / bpfs p) + 1
                     else b / (p.bpw / bpfs p)) : Nat) : Int)),
          .slc (if a % (p.bpw / bpfs p) ≠ 0
                  then some ((a % (p.bpw / bpfs p) : Nat) : Int) else none)
               (if b % (p.bpw / bpfs p) ≠ 0
                  then some ((a % (p.bpw / bpfs p) + (b - a) : Nat) : Int)
                  else none)
               none)
      else .error .typeErr) := by
  have hres := pySliceIndices_natNat (nsample p) a b (hab.trans hb) hb
  simp only [item_to_slices, Option.getD, hres, if_true,
    eq_false (one_ne_zero : (1 : Int) ≠ 0), if_false]
  by_cases hfull : b - a = nsample p
  · rw [if_pos (by omega : ((b : Int) - (a : Int)) = ((nsample p : Nat) : Int)),
      if_pos hfull]
  · rw [if_neg (by omega : ¬ ((b : Int) - (a : Int)) = ((nsample p : Nat) : Int)),
      if_neg hfull]
    by_cases hA : bpfs p % p.bpw = 0
    · rw [if_pos hA, if_pos hA]
      simp only [Except.ok.injEq, Prod.mk.injEq, Option.some.injEq]
      refine ⟨⟨?_, ?_⟩, trivial⟩ <;> push_cast <;> ring
    · rw [if_neg hA, if_neg hA]
      by_cases hB : p.bpw % bpfs p = 0
      · rw [if_pos hB, if_pos hB]
        rw [Int_fdiv_natCast a (p.bpw / bpfs p), Int_fmod_natCast a (p.bpw / bpfs p),
          Int_fdiv_natCast b (p.bpw / bpfs p), Int_fmod_natCast b (p.bpw / bpfs p)]
        simp only [Except.ok.injEq, Prod.mk.injEq, Option.some.injEq, ne_eq,
          Int.natCast_eq_zero]
        by_cases hbo : b % (p.bpw / bpfs p) = 0 <;>
          by_cases hao : a % (p.bpw / bpfs p) = 0 <;>
            simp [hbo, hao, DSlice.slc.injEq] <;> push_cast <;> omega
      · rw [if_neg hB, if_neg hB]

/-! ### `pySliceList` step-1 variants -/

theorem pySliceList_all {α : Type} [Inhabited α] (l : List α) :
    pySliceList l none none none = l := by
  rw [pySliceList_resolved l none none 0 l.length
    (by rw [pySliceIndices_none_none]; norm_num) (Nat.zero_le _) le_rfl]
  simp

theorem pySliceList_natNat {α : Type} [Inhabited α] (l : List α) (i j : Nat)
    (hij : i ≤ j) (hj : j ≤ l.length) :
    pySliceList l (some (i : Int)) (some (j : Int)) none =
      (l.drop i).take (j - i) :=
  pySliceList_resolved l _ _ i j
    (pySliceIndices_natNat l.length i j (hij.trans hj) hj) hij hj

theorem pySliceList_natNone {α : Type} [Inhabited α] (l : List α) (i : Nat)
    (hi : i ≤ l.length) :
    pySliceList l (some (i : Int)) none none = l.drop i := by
  rw [pySliceList_resolved l _ _ i l.length
    (pySliceIndices_nat_none l.length i hi) hi le_rfl]
  exact List.take_of_length_le (by simp)

theorem pySliceList_noneNat {α : Type} [Inhabited α] (l : List α) (j : Nat)
    (hj : j ≤ l.length) :
    pySliceList l none (some (j : Int)) none = l.take j := by
  rw [pySliceList_resolved l _ _ 0 j
    (by rw [pySliceIndices_none_nat l.length j hj]; norm_num)
    (Nat.zero_le _) hj]
  simp

/-! ### `__getitem__` branch lemmas -/

theorem payloadGetItem_err (p : PyPayload) (item : PyItem) (e : PayloadErr)
    (hne : item ≠ .slc none none none)
    (h : item_to_slices p item = .error e) :
    payloadGetItem p item = .error e := by
  simp only [payloadGetItem, if_neg hne, h]

theorem payloadGetItem_slc_case (p : PyPayload) (item : PyItem)
    (wsa wsb dsa dsb dss : Option Int)
    (hne : item ≠ .slc none none none)
    (h : item_to_slices p item = .ok ((wsa, wsb), .slc dsa dsb dss)) :
    payloadGetItem p item =
      (if compsPerSample p ∣
          (decodeWords p.bps p.bpw (pySliceList p.words wsa wsb none)).length
       then .ok (List.flatten (pySliceList
         (chunkExact (compsPerSample p)
           (decodeWords p.bps p.bpw (pySliceList p.words wsa wsb none)))
         dsa dsb dss))
       else .error .valueErr) := by
  simp only [payloadGetItem, if_neg hne, h]

theorem payloadGetItem_full_path (p : PyPayload) :
    payloadGetItem p (.slc none none none) =
      (if (decodeWords p.bps p.bpw p.words).length =
          nsample p * compsPerSample p
       then .ok (decodeWords p.bps p.bpw p.words)
       else .error .valueErr) := by
  simp only [payloadGetItem, if_true]

/-- Composition: slicing row `o .. o+n` out of the chunked decode of a
contiguous component window equals the corresponding contiguous window of
the full component list. -/
theorem slice_of_decoded (cps : Nat) (hcps : 0 < cps) (full : List Nat)
    (dropC takeC o n : Nat)
    (htake : dropC + takeC ≤ full.length)
    (hcut : (o + n) * cps ≤ takeC) :
    (((chunkExact cps ((full.drop dropC).take takeC)).drop o).take n).flatten
      = (full.drop (dropC + o * cps)).take (n * cps) := by
  have hcomplen : ((full.drop dropC).take takeC).length = takeC := by
    simp only [List.length_take, List.length_drop]
    omega
  rw [chunk_flatten_drop_take cps hcps ((full.drop dropC).take takeC) n o
    (by rw [hcomplen]; exact hcut)]
  rw [List.drop_take, List.drop_drop]
  rw [List.take_take]
  congr 1
  have : n * cps ≤ takeC - o * cps := by
    have := hcut
    rw [Nat.add_mul] at this
    omega
  omega

/-! ### C1: slice access equals slicing the full decode -/

/-- C1: for a supported payload layout — `_bpfs` divides or is divided by
the word width, the buffer holds a whole number of samples, and the
(spec-modelled, bps-generic) codec has `bps` dividing the word width — and
for any valid step-1 slice `[a:b]`, indexing the payload (which decodes
only the words selected by `_item_to_slices` and applies the returned data
slice) yields exactly the samples `a..b` of the full decode, and the full
decode itself is returned by `payload[:]`. -/
theorem payload_slice_matches_full_decode (p : PyPayload) (a b : Nat)
    (hS : 0 < p.bps) (hW : 0 < p.bpw) (hSW : p.bps ∣ p.bpw)
    (hF : 0 < bpfs p)
    (hlay : bpfs p % p.bpw = 0 ∨ p.bpw % bpfs p = 0)
    (htot : bpfs p ∣ p.words.length * p.bpw)
    (hab : a ≤ b) (hb : b ≤ nsample p) :
    payloadGetItem p (.slc (some (a : Int)) (some (b : Int)) none) =
      .ok ((((chunkExact (compsPerSample p)
          (decodeWords p.bps p.bpw p.words)).drop a).take (b - a)).flatten) ∧
    payloadGetItem p (.slc none none none) =
      .ok (decodeWords p.bps p.bpw p.words) := by
  have hSF : p.bps ∣ bpfs p :=
    ⟨(if p.complex_data then 2 else 1) * p.sample_shape.prod,
      by unfold bpfs; ring⟩
  have hcps : compsPerSample p * p.bps = bpfs p := Nat.div_mul_cancel hSF
  have hcpw : (p.bpw / p.bps) * p.bps = p.bpw := Nat.div_mul_cancel hSW
  have hcps0 : 0 < compsPerSample p := by
    rcases Nat.eq_zero_or_pos (compsPerSample p) with h0 | h0
    · rw [h0, Nat.zero_mul] at hcps; omega
    · exact h0
  have hfulllen : (decodeWords p.bps p.bpw p.words).length =
      p.words.length * (p.bpw / p.bps) := length_decodeWords _ _ _
  have hdvdLc : compsPerSample p ∣ p.words.length * (p.bpw / p.bps) := by
    have h1 : (compsPerSample p * p.bps) ∣
        (p.words.length * (p.bpw / p.bps)) * p.bps := by
      rw [hcps, Nat.mul_assoc, hcpw]
      exact htot
    exact (Nat.mul_dvd_mul_iff_right hS).mp h1
  have hns : nsample p * compsPerSample p =
      p.words.length * (p.bpw / p.bps) := by
    have h1 : nsample p =
        p.words.length * (p.bpw / p.bps) / compsPerSample p := by
      have e1 : p.words.length * p.bpw =
          (p.words.length * (p.bpw / p.bps)) * p.bps := by
        rw [Nat.mul_assoc, hcpw]
      unfold nsample
      rw [e1, ← hcps]
      exact Nat.mul_div_mul_right _ _ hS
    rw [h1, Nat.div_mul_cancel hdvdLc]
  have hfull2 : payloadGetItem p (.slc none none none) =
      .ok (decodeWords p.bps p.bpw p.words) := by
    rw [payloadGetItem_full_path, if_pos (by rw [hfulllen, hns])]
  refine ⟨?_, hfull2⟩
  have hRHS : (((chunkExact (compsPerSample p)
      (decodeWords p.bps p.bpw p.words)).drop a).take (b - a)).flatten =
      ((decodeWords p.bps p.bpw p.words).drop (a * compsPerSample p)).take
        ((b - a) * compsPerSample p) := by
    apply chunk_flatten_drop_take _ hcps0
    rw [hfulllen, ← hns, show a + (b - a) = b by omega]
    exact Nat.mul_le_mul_right _ hb
  rw [hRHS]
  have hiz := item_to_slices_natSlice p a b hab hb
  by_cases hfull : b - a = nsample p
  · -- zero-cost whole-buffer path
    rw [if_pos hfull] at hiz
    rw [payloadGetItem_slc_case p _ none none none none none (by simp) hiz]
    rw [pySliceList_all,
      if_pos (show compsPerSample p ∣ _ by rw [hfulllen]; exact hdvdLc),
      pySliceList_all,
      chunk_flatten_all _ hcps0 _ (by rw [hfulllen]; exact hdvdLc)]
    have ha0 : a = 0 := by omega
    congr 1
    rw [ha0, Nat.zero_mul, List.drop_zero, Nat.sub_zero,
      show b = nsample p by omega, hns, ← hfulllen, List.take_length]
  · rw [if_neg hfull] at hiz
    by_cases hA : bpfs p % p.bpw = 0
    · -- case A: each full sample spans one or more whole words
      rw [if_pos hA] at hiz
      have hWF : p.bpw ∣ bpfs p := Nat.dvd_of_mod_eq_zero hA
      have hwpfs : (bpfs p / p.bpw) * p.bpw = bpfs p := Nat.div_mul_cancel hWF
      have hwdvd : (bpfs p / p.bpw) ∣ p.words.length := by
        have h1 : ((bpfs p / p.bpw) * p.bpw) ∣ p.words.length * p.bpw := by
          rw [hwpfs]; exact htot
        exact (Nat.mul_dvd_mul_iff_right hW).mp h1
      have hLeq : nsample p * (bpfs p / p.bpw) = p.words.length := by
        have h1 : nsample p = p.words.length / (bpfs p / p.bpw) := by
          unfold nsample
          conv_lhs => rw [← hwpfs]
          exact Nat.mul_div_mul_right _ _ hW
        rw [h1, Nat.div_mul_cancel hwdvd]
      have hcpsA : compsPerSample p = (bpfs p / p.bpw) * (p.bpw / p.bps) := by
        have h1 : compsPerSample p * p.bps =
            ((bpfs p / p.bpw) * (p.bpw / p.bps)) * p.bps := by
          rw [hcps, Nat.mul_assoc, hcpw, hwpfs]
        exact Nat.eq_of_mul_eq_mul_right hS h1
      rw [payloadGetItem_slc_case p _ _ _ none none none (by simp) hiz]
      have hbw : b * (bpfs p / p.bpw) ≤ p.words.length := by
        rw [← hLeq]; exact Nat.mul_le_mul_right _ hb
      have haw : a * (bpfs p / p.bpw) ≤ b * (bpfs p / p.bpw) :=
        Nat.mul_le_mul_right _ hab
      rw [pySliceList_natNat p.words _ _ haw hbw]
      rw [show b * (bpfs p / p.bpw) - a * (bpfs p / p.bpw) =
        (b - a) * (bpfs p / p.bpw) from (Nat.sub_mul b a _).symm]
      have hk2 : a * (bpfs p / p.bpw) ≤ p.words.length := le_trans haw hbw
      have hk1 : (b - a) * (bpfs p / p.bpw) ≤
          (p.words.drop (a * (bpfs p / p.bpw))).length := by
        simp only [List.length_drop]
        rw [Nat.sub_mul]
        omega
      rw [decodeWords_take _ _ _ _ hk1, decodeWords_drop _ _ _ _ hk2]
      have hlenA : (((decodeWords p.bps p.bpw p.words).drop
          (a * (bpfs p / p.bpw) * (p.bpw / p.bps))).take
          ((b - a) * (bpfs p / p.bpw) * (p.bpw / p.bps))).length =
          (b - a) * (bpfs p / p.bpw) * (p.bpw / p.bps) := by
        simp only [List.length_take, List.length_drop, hfulllen]
        have e1 : a * (bpfs p / p.bpw) * (p.bpw / p.bps) =
            a * ((bpfs p / p.bpw) * (p.bpw / p.bps)) := by ring
        have e2 : (b - a) * (bpfs p / p.bpw) * (p.bpw / p.bps) =
            b * ((bpfs p / p.bpw) * (p.bpw / p.bps)) -
            a * ((bpfs p / p.bpw) * (p.bpw / p.bps)) := by
          rw [← Nat.sub_mul, ← Nat.mul_assoc]
        have e3 : b * ((bpfs p / p.bpw) * (p.bpw / p.bps)) ≤
            p.words.length * (p.bpw / p.bps) := by
          rw [← Nat.mul_assoc]
          exact Nat.mul_le_mul_right _ hbw
        have e4 : a * ((bpfs p / p.bpw) * (p.bpw / p.bps)) ≤
            b * ((bpfs p / p.bpw) * (p.bpw / p.bps)) :=
          Nat.mul_le_mul_right _ hab
        omega
      have hdvdA : compsPerSample p ∣
          (((decodeWords p.bps p.bpw p.words).drop
            (a * (bpfs p / p.bpw) * (p.bpw / p.bps))).take
            ((b - a) * (bpfs p / p.bpw) * (p.bpw / p.bps))).length := by
        rw [hlenA, hcpsA, Nat.mul_assoc]
        exact dvd_mul_left _ _
      rw [if_pos hdvdA, pySliceList_all,
        chunk_flatten_all _ hcps0 _ hdvdA]
      congr 1
      rw [hcpsA, ← Nat.mul_assoc, ← Nat.mul_assoc]
    · -- case B: several full samples per word
      have hB : p.bpw % bpfs p = 0 := hlay.resolve_left hA
      rw [if_neg hA, if_pos hB] at hiz
      have hFW : bpfs p ∣ p.bpw := Nat.dvd_of_mod_eq_zero hB
      set f := p.bpw / bpfs p with hfdef
      set cps := compsPerSample p with hcpsdef
      set u := a / f with hudef
      set x := a % f with hxdef
      set v := b / f with hvdef
      set y := b % f with hydef
      have hf : f * bpfs p = p.bpw := Nat.div_mul_cancel hFW
      have hf0 : 0 < f := by
        rcases Nat.eq_zero_or_pos f with h0 | h0
        · rw [h0, Nat.zero_mul] at hf; omega
        · exact h0
      have hnsB : nsample p = p.words.length * f := by
        unfold nsample
        rw [← hf, ← Nat.mul_assoc]
        exact Nat.mul_div_cancel _ hF
      have hcpwB : p.bpw / p.bps = f * cps := by
        have h1 : (p.bpw / p.bps) * p.bps = (f * cps) * p.bps := by
          rw [hcpw, Nat.mul_assoc, hcps, hf]
        exact Nat.eq_of_mul_eq_mul_right hS h1
      have e_uf : u * f + x = a := by
        rw [Nat.mul_comm]; exact Nat.div_add_mod a f
      have e_vf : v * f + y = b := by
        rw [Nat.mul_comm]; exact Nat.div_add_mod b f
      have hxa : x < f := Nat.mod_lt _ hf0
      have hya : y < f := Nat.mod_lt _ hf0
      have huv : u ≤ v := Nat.div_le_div_right hab
      have h_uv_mul : u * f ≤ v * f := Nat.mul_le_mul_right f huv
      have hbLf : b ≤ p.words.length * f := by rw [← hnsB]; exact hb
      clear_value u x v y
      set W2 := if y ≠ 0 then v + 1 else v with hW2def
      obtain ⟨hW2u, hW2L, hkey1, hkey2⟩ :
          u ≤ W2 ∧ W2 ≤ p.words.length ∧
          x + (b - a) ≤ (W2 - u) * f ∧
          (y = 0 → (W2 - u) * f - x ≤ b - a) := by
        by_cases hy : y = 0
        · simp only [hW2def, hy, ne_eq, not_true_eq_false, if_false]
          have e_K : (v - u) * f = v * f - u * f := Nat.sub_mul _ _ _
          have hvL : v * f ≤ p.words.length * f := by omega
          have hvL' : v ≤ p.words.length :=
            Nat.le_of_mul_le_mul_right (by omega) hf0
          exact ⟨huv, hvL', by omega, fun _ => by omega⟩
        · simp only [hW2def, hy, ne_eq, not_false_eq_true, if_true]
          have e_K : (v + 1 - u) * f = v * f + f - u * f := by
            rw [Nat.sub_mul, Nat.succ_mul]
          have hvL : v * f < p.words.length * f := by omega
          have hvL' : v < p.words.length :=
            lt_of_mul_lt_mul_right hvL (Nat.zero_le f)
          exact ⟨by omega, by omega, by omega, fun hc => hc.elim⟩
      rw [payloadGetItem_slc_case p _ _ _ _ _ none (by simp) hiz]
      have hselB : pySliceList p.words (some ((u : Nat) : Int))
          (some ((W2 : Nat) : Int)) none =
          (p.words.drop u).take (W2 - u) :=
        pySliceList_natNat p.words u W2 hW2u hW2L
      rw [hselB]
      have hk2 : u ≤ p.words.length := le_trans hW2u hW2L
      have hk1 : W2 - u ≤ (p.words.drop u).length := by
        simp only [List.length_drop]; omega
      rw [decodeWords_take _ _ _ _ hk1, decodeWords_drop _ _ _ _ hk2]
      have hcomplen : (((decodeWords p.bps p.bpw p.words).drop
          (u * (p.bpw / p.bps))).take
          ((W2 - u) * (p.bpw / p.bps))).length =
          (W2 - u) * (p.bpw / p.bps) := by
        simp only [List.length_take, List.length_drop, hfulllen]
        have e1 : (W2 - u) * (p.bpw / p.bps) =
            W2 * (p.bpw / p.bps) - u * (p.bpw / p.bps) := Nat.sub_mul _ _ _
        have e2 : W2 * (p.bpw / p.bps) ≤ p.words.length * (p.bpw / p.bps) :=
          Nat.mul_le_mul_right _ hW2L
        have e3 : u * (p.bpw / p.bps) ≤ W2 * (p.bpw / p.bps) :=
          Nat.mul_le_mul_right _ hW2u
        omega
      have hdvdB : cps ∣ (((decodeWords p.bps p.bpw p.words).drop
          (u * (p.bpw / p.bps))).take
          ((W2 - u) * (p.bpw / p.bps))).length := by
        rw [hcomplen, hcpwB, ← Nat.mul_assoc]
        exact dvd_mul_left _ _
      rw [if_pos hdvdB]
      have hsamlen : (chunkExact cps (((decodeWords p.bps p.bpw
          p.words).drop (u * (p.bpw / p.bps))).take
          ((W2 - u) * (p.bpw / p.bps)))).length = (W2 - u) * f := by
        rw [length_chunkExact, hcomplen, hcpwB, ← Nat.mul_assoc,
          Nat.mul_div_cancel _ hcps0]
      have hpick : pySliceList (chunkExact cps (((decodeWords p.bps p.bpw
            p.words).drop (u * (p.bpw / p.bps))).take
            ((W2 - u) * (p.bpw / p.bps))))
          (if x ≠ 0 then some ((x : Nat) : Int) else none)
          (if y ≠ 0 then some ((x + (b - a) : Nat) : Int) else none) none =
          ((chunkExact cps (((decodeWords p.bps p.bpw p.words).drop
            (u * (p.bpw / p.bps))).take
            ((W2 - u) * (p.bpw / p.bps)))).drop x).take (b - a) := by
        by_cases hy : y = 0 <;> by_cases hx : x = 0
        · have hk2 := hkey2 hy
          simp only [hy, hx, ne_eq, not_true_eq_false, if_false]
          rw [List.drop_zero, pySliceList_all]
          exact (List.take_of_length_le (by rw [hsamlen]; omega)).symm
        · have hk2 := hkey2 hy
          simp only [hy, hx, ne_eq, not_true_eq_false, if_false,
            not_false_eq_true, if_true]
          rw [pySliceList_natNone _ x (by rw [hsamlen]; omega)]
          exact (List.take_of_length_le
            (by simp only [List.length_drop, hsamlen]; omega)).symm
        · simp only [hy, hx, ne_eq, not_true_eq_false, if_false,
            not_false_eq_true, if_true, Nat.zero_add]
          rw [List.drop_zero, pySliceList_noneNat _ (b - a)
            (by rw [hsamlen]; omega)]
        · simp only [hy, hx, ne_eq, not_false_eq_true, if_true]
          rw [pySliceList_natNat _ x (x + (b - a)) (Nat.le_add_right _ _)
            (by rw [hsamlen]; omega)]
          rw [Nat.add_sub_cancel_left]
      rw [hpick]
      have htakeB : u * (p.bpw / p.bps) + (W2 - u) * (p.bpw / p.bps) ≤
          (decodeWords p.bps p.bpw p.words).length := by
        rw [hfulllen]
        have e1 : (W2 - u) * (p.bpw / p.bps) =
            W2 * (p.bpw / p.bps) - u * (p.bpw / p.bps) := Nat.sub_mul _ _ _
        have e2 : W2 * (p.bpw / p.bps) ≤ p.words.length * (p.bpw / p.bps) :=
          Nat.mul_le_mul_right _ hW2L
        have e3 : u * (p.bpw / p.bps) ≤ W2 * (p.bpw / p.bps) :=
          Nat.mul_le_mul_right _ hW2u
        omega
      have hcutB : (x + (b - a)) * cps ≤ (W2 - u) * (p.bpw / p.bps) := by
        rw [hcpwB, ← Nat.mul_assoc]
        exact Nat.mul_le_mul_right _ hkey1
      rw [slice_of_decoded cps hcps0 (decodeWords p.bps p.bpw p.words)
        (u * (p.bpw / p.bps)) ((W2 - u) * (p.bpw / p.bps)) x (b - a)
        htakeB hcutB]
      have e : u * (p.bpw / p.bps) + x * cps = a * cps := by
        rw [hcpwB, ← Nat.mul_assoc, ← Nat.add_mul, e_uf]
      rw [e]
/-! ### C5: unsupported layouts -/

theorem item_to_slices_int_unsupported (p : PyPayload) (i : Int)
    (h0 : 0 ≤ i) (hlt : i < (nsample p : Int))
    (h1 : (1 : Int) ≠ (nsample p : Int))
    (hA : ¬ bpfs p % p.bpw = 0) (hB : ¬ p.bpw % bpfs p = 0) :
    item_to_slices p (.int i) = .error .typeErr := by
  simp only [item_to_slices]
  rw [if_neg (by omega : ¬ i < 0),
    if_neg (not_not_intro ⟨h0, hlt⟩),
    if_neg h1, if_neg hA, if_neg hB]

/-- C5 (amended): when `_bpfs` neither divides nor is divided by the word
width, construction succeeds; indexed accesses that resolve to a strict
sub-range of the payload — a step-1 slice `[a:b]` with `b - a ≠ nsample`,
or an integer index on a payload with `nsample ≠ 1` — raise the
TypeError-kind `UnsupportedLayout` failure; only accesses resolving to the
whole payload escape the check. -/
theorem unsupported_layout_subrange_raises (p : PyPayload) (a b : Nat)
    (hA : ¬ bpfs p % p.bpw = 0) (hB : ¬ p.bpw % bpfs p = 0)
    (hab : a ≤ b) (hb : b ≤ nsample p) (hne : ¬ (b - a = nsample p)) :
    payloadGetItem p (.slc (some (a : Int)) (some (b : Int)) none) =
      .error .typeErr ∧
    (∀ (i : Int), 0 ≤ i → i < (nsample p : Int) →
      (1 : Int) ≠ (nsample p : Int) →
      payloadGetItem p (.int i) = .error .typeErr) := by
  constructor
  · have hiz := item_to_slices_natSlice p a b hab hb
    rw [if_neg hne, if_neg hA, if_neg hB] at hiz
    exact payloadGetItem_err p _ _ (by simp) hiz
  · intro i h0 hlt h1
    exact payloadGetItem_err p _ _ (by simp)
      (item_to_slices_int_unsupported p i h0 hlt h1 hA hB)

theorem unsupported_layout_subrange_raises_witness :
    payloadGetItem ⟨[5, 2, 9], 4, 1, [3], false⟩
        (.slc (some ((0 : Nat) : Int)) (some ((2 : Nat) : Int)) none) =
      .error .typeErr ∧
    (∀ (i : Int), 0 ≤ i →
      i < ((nsample ⟨[5, 2, 9], 4, 1, [3], false⟩ : Nat) : Int) →
      (1 : Int) ≠ ((nsample ⟨[5, 2, 9], 4, 1, [3], false⟩ : Nat) : Int) →
      payloadGetItem ⟨[5, 2, 9], 4, 1, [3], false⟩ (.int i) =
        .error .typeErr) :=
  unsupported_layout_subrange_raises ⟨[5, 2, 9], 4, 1, [3], false⟩ 0 2
    (by decide) (by decide) (by decide) (by decide) (by decide)

/-- C5 counterexample: on a payload whose layout is unsupported
(`bpfs = 3`, word width 4: neither divides the other), construction does
not fail, and the indexed access `payload[0:nsample]` (a slice resolving to
the whole payload) silently returns decoded data rather than failing. -/
theorem unsupported_layout_full_range_returns_data :
    payloadGetItem ⟨[5, 2, 9], 4, 1, [3], false⟩
        (.slc (some 0) (some 4) none) =
      .ok [1, 0, 1, 0, 0, 1, 0, 0, 1, 0, 0, 1] ∧
    ∀ e, payloadGetItem ⟨[5, 2, 9], 4, 1, [3], false⟩
        (.slc (some 0) (some 4) none) ≠ .error e := by
  constructor
  · rfl
  · intro e h
    rw [show payloadGetItem ⟨[5, 2, 9], 4, 1, [3], false⟩
        (.slc (some 0) (some 4) none) =
      .ok [1, 0, 1, 0, 0, 1, 0, 0, 1, 0, 0, 1] from rfl] at h
    exact Except.noConfusion h

/-! ### C9: negative-step slices -/

theorem fdiv_negOne (f : Nat) (hf : 1 ≤ f) :
    Int.fdiv (-1) ((f : Nat) : Int) = -1 := by
  obtain ⟨g, rfl⟩ : ∃ g, f = g + 1 := ⟨f - 1, by omega⟩
  show Int.fdiv (Int.negSucc 0) (Int.ofNat (g + 1)) = -1
  simp [Int.fdiv, Nat.zero_div]

theorem fmod_negOne (f : Nat) (hf : 1 ≤ f) :
    Int.fmod (-1) ((f : Nat) : Int) = ((f - 1 : Nat) : Int) := by
  show Int.fmod (Int.negSucc 0) (Int.ofNat f) = ((f - 1 : Nat) : Int)
  unfold Int.fmod
  simp only [Nat.zero_mod, Int.subNatNat]
  rw [show 1 - f = 0 from by omega]
  rfl

theorem mul_sub_one_div (L f : Nat) (hL : 1 ≤ L) (hf : 1 ≤ f) :
    (L * f - 1) / f = L - 1 := by
  have e1 : (L - 1) * f = L * f - 1 * f := Nat.sub_mul L 1 f
  have e1b : (1 : Nat) * f = f := Nat.one_mul f
  have hLf : f ≤ L * f := Nat.le_mul_of_pos_left f hL
  have e2 : L * f - 1 = (f - 1) + (L - 1) * f := by omega
  have e3 : (f - 1) / f = 0 := Nat.div_eq_of_lt (by omega)
  rw [e2, Nat.add_mul_div_right _ _ (by omega : 0 < f), e3]
  omega

theorem pySliceIndices_rev (len : Nat) :
    pySliceIndices len none none (-1) = ((len : Int) - 1, -1) := by
  simp only [pySliceIndices]
  norm_num

theorem pySliceList_resolved_empty {α : Type} [Inhabited α] (l : List α)
    (osta osto : Option Int) (s e : Nat)
    (hres : pySliceIndices l.length osta osto 1 = ((s : Int), (e : Int)))
    (hes : e ≤ s) : pySliceList l osta osto none = [] := by
  unfold pySliceList
  simp only [Option.getD]
  rw [hres, pySliceCount_step1, Nat.sub_eq_zero_of_le hes]
  rfl

theorem pySliceIndices_zero (osta osto : Option Int) (step : Int) :
    (pySliceIndices 0 osta osto step).1 = (pySliceIndices 0 osta osto step).2 := by
  simp only [pySliceIndices, Nat.cast_zero]
  rcases osta with _ | s <;> rcases osto with _ | e <;> split_ifs <;>
    simp <;> omega

theorem pySliceCount_self (s step : Int) : pySliceCount s s step = 0 := by
  unfold pySliceCount
  split_ifs <;> omega

theorem pySliceList_nil {α : Type} [Inhabited α]
    (osta osto ostep : Option Int) :
    pySliceList ([] : List α) osta osto ostep = [] := by
  unfold pySliceList
  simp only [List.length_nil]
  have h := pySliceIndices_zero osta osto (ostep.getD 1)
  rcases hE : pySliceIndices 0 osta osto (ostep.getD 1) with ⟨s0, e0⟩
  rw [hE] at h
  simp only at h
  subst h
  simp [pySliceCount_self]

theorem getitem_empty_sel (p : PyPayload) (dsa dsb dss : Option Int) :
    (if compsPerSample p ∣
        (decodeWords p.bps p.bpw ([] : List Nat)).length
     then Except.ok (List.flatten (pySliceList
       (chunkExact (compsPerSample p) (decodeWords p.bps p.bpw []))
       dsa dsb dss))
     else Except.error PayloadErr.valueErr) = .ok ([] : List Nat) := by
  rw [show decodeWords p.bps p.bpw [] = [] from rfl]
  rw [if_pos (by simp)]
  rw [show chunkExact (compsPerSample p) [] = [] from by simp [chunkExact]]
  rw [pySliceList_nil, List.flatten_nil]

theorem payload_slice_matches_full_decode_witness :
    payloadGetItem ⟨[9, 6], 4, 1, [2], false⟩
        (.slc (some ((1 : Nat) : Int)) (some ((3 : Nat) : Int)) none) =
      .ok ((((chunkExact (compsPerSample ⟨[9, 6], 4, 1, [2], false⟩)
          (decodeWords 1 4 [9, 6])).drop 1).take (3 - 1)).flatten) ∧
    payloadGetItem ⟨[9, 6], 4, 1, [2], false⟩ (.slc none none none) =
      .ok (decodeWords 1 4 [9, 6]) :=
  payload_slice_matches_full_decode ⟨[9, 6], 4, 1, [2], false⟩ 1 3
    (by decide) (by decide) (by decide) (by decide) (by decide) (by decide)
    (by decide) (by decide)

/-- C9 (amended): indexing a supported payload of at least two samples with
the negative-step slice `[::-1]` does not fail: `_item_to_slices` computes
the word range assuming a forward slice, which for the reversed payload
resolves to an empty word range, so the access silently returns an empty
result instead of raising an error. -/
theorem negative_step_reverse_returns_empty (p : PyPayload)
    (hS : 0 < p.bps) (hW : 0 < p.bpw) (hSW : p.bps ∣ p.bpw)
    (hF : 0 < bpfs p)
    (hlay : bpfs p % p.bpw = 0 ∨ p.bpw % bpfs p = 0)
    (htot : bpfs p ∣ p.words.length * p.bpw)
    (hns2 : 2 ≤ nsample p) :
    payloadGetItem p (.slc none none (some (-1))) = .ok [] := by
  have hne : (PyItem.slc none none (some (-1))) ≠ PyItem.slc none none none := by
    simp
  have hrev := pySliceIndices_rev (nsample p)
  by_cases hA : bpfs p % p.bpw = 0
  · -- each full sample spans whole words: the word slice is empty
    have hWF : p.bpw ∣ bpfs p := Nat.dvd_of_mod_eq_zero hA
    have hwpfs : (bpfs p / p.bpw) * p.bpw = bpfs p := Nat.div_mul_cancel hWF
    have hw0 : 0 < bpfs p / p.bpw := by
      rcases Nat.eq_zero_or_pos (bpfs p / p.bpw) with h0 | h0
      · rw [h0, Nat.zero_mul] at hwpfs; omega
      · exact h0
    have hwdvd : (bpfs p / p.bpw) ∣ p.words.length := by
      have h1 : ((bpfs p / p.bpw) * p.bpw) ∣ p.words.length * p.bpw := by
        rw [hwpfs]; exact htot
      exact (Nat.mul_dvd_mul_iff_right hW).mp h1
    have hLeq : nsample p * (bpfs p / p.bpw) = p.words.length := by
      have h1 : nsample p = p.words.length / (bpfs p / p.bpw) := by
        unfold nsample
        conv_lhs => rw [← hwpfs]
        exact Nat.mul_div_mul_right _ _ hW
      rw [h1, Nat.div_mul_cancel hwdvd]
    have hiz : item_to_slices p (.slc none none (some (-1))) =
        .ok ((some (((nsample p : Int) - 1) *
                ((bpfs p / p.bpw : Nat) : Int)),
              some ((-1) * ((bpfs p / p.bpw : Nat) : Int))),
          .slc none none (some (-1))) := by
      simp only [item_to_slices, Option.getD, hrev]
      rw [if_neg (by norm_num : ¬ (-1 : Int) = 0),
        if_neg (show ¬ (-1 - ((nsample p : Int) - 1)) = (nsample p : Int)
          from by omega),
        if_pos hA, if_neg (by norm_num : ¬ (-1 : Int) = 1)]
    rw [payloadGetItem_slc_case p _ _ _ none none (some (-1)) hne hiz]
    have hK1 : (nsample p - 1) * (bpfs p / p.bpw) + (bpfs p / p.bpw) =
        p.words.length := by
      have e2 : (nsample p - 1) * (bpfs p / p.bpw) =
          nsample p * (bpfs p / p.bpw) - 1 * (bpfs p / p.bpw) :=
        Nat.sub_mul _ _ _
      have e3 : (1 : Nat) * (bpfs p / p.bpw) = bpfs p / p.bpw :=
        Nat.one_mul _
      have e4 : bpfs p / p.bpw ≤ nsample p * (bpfs p / p.bpw) :=
        Nat.le_mul_of_pos_left _ (by omega)
      omega
    have e1 : ((nsample p : Int) - 1) * ((bpfs p / p.bpw : Nat) : Int) =
        (((nsample p - 1) * (bpfs p / p.bpw) : Nat) : Int) := by
      rw [Nat.cast_mul, Nat.cast_sub (by omega : 1 ≤ nsample p)]
      norm_num
    rw [e1]
    have hres0 : pySliceIndices p.words.length
        (some (((nsample p - 1) * (bpfs p / p.bpw) : Nat) : Int))
        (some ((-1) * ((bpfs p / p.bpw : Nat) : Int))) 1 =
        ((((nsample p - 1) * (bpfs p / p.bpw) : Nat) : Int),
         (((nsample p - 1) * (bpfs p / p.bpw) : Nat) : Int)) := by
      simp only [pySliceIndices, Prod.mk.injEq]
      constructor <;> (split_ifs <;> omega)
    rw [pySliceList_resolved_empty p.words _ _
      ((nsample p - 1) * (bpfs p / p.bpw))
      ((nsample p - 1) * (bpfs p / p.bpw)) hres0 le_rfl]
    exact getitem_empty_sel p none none (some (-1))
  · -- several samples per word: the wrap of the stop index empties the range
    have hB : p.bpw % bpfs p = 0 := hlay.resolve_left hA
    have hFW : bpfs p ∣ p.bpw := Nat.dvd_of_mod_eq_zero hB
    have hfs : (p.bpw / bpfs p) * bpfs p = p.bpw := Nat.div_mul_cancel hFW
    have hf0 : 0 < p.bpw / bpfs p := by
      rcases Nat.eq_zero_or_pos (p.bpw / bpfs p) with h0 | h0
      · rw [h0, Nat.zero_mul] at hfs; omega
      · exact h0
    have hf2 : 2 ≤ p.bpw / bpfs p := by
      rcases Nat.lt_or_ge (p.bpw / bpfs p) 2 with h2 | h2
      · exfalso
        have h1 : p.bpw / bpfs p = 1 := by omega
        rw [h1, Nat.one_mul] at hfs
        rw [← hfs] at hA
        exact hA (Nat.mod_self _)
      · exact h2
    have hnsB : nsample p = p.words.length * (p.bpw / bpfs p) := by
      unfold nsample
      conv_lhs => rw [← hfs]
      rw [← Nat.mul_assoc]
      exact Nat.mul_div_cancel _ hF
    have hL1 : 1 ≤ p.words.length := by
      rcases Nat.eq_zero_or_pos p.words.length with h0 | h0
      · rw [h0, Nat.zero_mul] at hnsB; omega
      · exact h0
    have hfd1 : Int.fdiv ((nsample p : Int) - 1)
        ((p.bpw / bpfs p : Nat) : Int) =
        ((p.words.length - 1 : Nat) : Int) := by
      rw [show ((nsample p : Int) - 1) = ((nsample p - 1 : Nat) : Int)
        from by rw [Nat.cast_sub (by omega : 1 ≤ nsample p)]; norm_num]
      rw [Int_fdiv_natCast]
      congr 1
      rw [hnsB]
      exact mul_sub_one_div p.words.length _ hL1 (by omega)
    have hfd2 : Int.fdiv (-1) ((p.bpw / bpfs p : Nat) : Int) = -1 :=
      fdiv_negOne _ (by omega)
    have hfm2 : Int.fmod (-1) ((p.bpw / bpfs p : Nat) : Int) =
        ((p.bpw / bpfs p - 1 : Nat) : Int) := fmod_negOne _ (by omega)
    have hiz : item_to_slices p (.slc none none (some (-1))) =
        .ok ((some ((p.words.length - 1 : Nat) : Int), some ((-1) + 1)),
          .slc (if Int.fmod ((nsample p : Int) - 1)
                    ((p.bpw / bpfs p : Nat) : Int) ≠ 0
                then some (Int.fmod ((nsample p : Int) - 1)
                    ((p.bpw / bpfs p : Nat) : Int))
                else none)
               (some (Int.fmod ((nsample p : Int) - 1)
                    ((p.bpw / bpfs p : Nat) : Int) +
                  (-1 - ((nsample p : Int) - 1))))
               (some (-1))) := by
      simp only [item_to_slices, Option.getD, hrev]
      rw [if_neg (by norm_num : ¬ (-1 : Int) = 0),
        if_neg (show ¬ (-1 - ((nsample p : Int) - 1)) = (nsample p : Int)
          from by omega),
        if_neg hA, if_pos hB,
        if_neg (by norm_num : ¬ (-1 : Int) = 1),
        hfd1, hfd2, hfm2,
        if_pos (show ((p.bpw / bpfs p - 1 : Nat) : Int) ≠ 0
          from by omega),
        if_pos (show ((p.bpw / bpfs p - 1 : Nat) : Int) ≠ 0
          from by omega)]
    rw [payloadGetItem_slc_case p _ _ _ _ _ _ hne hiz]
    have hres0 : pySliceIndices p.words.length
        (some ((p.words.length - 1 : Nat) : Int)) (some ((-1) + 1)) 1 =
        (((p.words.length - 1 : Nat) : Int), ((0 : Nat) : Int)) := by
      simp only [pySliceIndices, Prod.mk.injEq]
      constructor <;> (split_ifs <;> omega)
    rw [pySliceList_resolved_empty p.words _ _ (p.words.length - 1) 0
      hres0 (Nat.zero_le _)]
    exact getitem_empty_sel p _ _ _

theorem negative_step_reverse_returns_empty_witness :
    payloadGetItem ⟨[9, 6], 4, 1, [2], false⟩ (.slc none none (some (-1))) =
      .ok [] :=
  negative_step_reverse_returns_empty ⟨[9, 6], 4, 1, [2], false⟩
    (by decide) (by decide) (by decide) (by decide) (by decide) (by decide)
    (by decide)

/-- C9 counterexample: on a 4-sample payload the access `payload[::-1]`
(a slice with negative step) returns an empty result instead of failing
with an error. -/
theorem negative_step_slice_does_not_fail :
    payloadGetItem ⟨[9, 6], 4, 1, [2], false⟩ (.slc none none (some (-1))) =
      .ok [] ∧
    ∀ e, payloadGetItem ⟨[9, 6], 4, 1, [2], false⟩
      (.slc none none (some (-1))) ≠ .error e := by
  constructor
  · rfl
  · intro e h
    rw [show payloadGetItem ⟨[9, 6], 4, 1, [2], false⟩
        (.slc none none (some (-1))) = .ok [] from rfl] at h
    exact Except.noConfusion h

end Baseband
